import Mathlib

/-!
# Verification of the India map visualizer's geospatial pipeline

Shallow embedding of the repository's code paths from the analysis order:
the choropleth color mapper, the district loader with its column-name
fallback (`app.py`, `load_districts`), the name-based selection filter
(`app.py`, the `isin` filters), the connector builder, the CRS-aware buffer
engine, and the offline rebuild's `tidy_name` normalizer
(`scripts/build_geojsons.py`).

The utility module implementing `buffer_geometries`,
`draw_map_lines_with_labels` and `add_hover_tooltips` is not among the
repository's source files; those operations are modelled from the spec's
contracts (sections 4.2, 4.3, 4.4), as their doc comments record.
-/

namespace GeoApp

/-! ## Choropleth color mapper (spec sections 4.4, 8)

Colors are RGB triples of rationals; the palette is a fixed linear
interpolation between two endpoint colors, a sequential light-yellow to
dark-red ramp. -/

/-- An RGB color with rational channels in `[0,1]`. -/
structure Color where
  r : ℚ
  g : ℚ
  b : ℚ
deriving DecidableEq

/-- Low end of the fixed sequential palette (light yellow). -/
def paletteLow : Color := ⟨1, 1, 4/5⟩

/-- High end of the fixed sequential palette (dark red). -/
def paletteHigh : Color := ⟨4/5, 0, 0⟩

/-- Modelled from the spec: the fixed, documented color scale of section 4.4.
`palette t` linearly interpolates the two palette endpoints at position
`t ∈ [0,1]`; `palette 0 = paletteLow` and `palette 1 = paletteHigh` are the
two extreme colors. -/
def palette (t : ℚ) : Color :=
  ⟨paletteLow.r + t * (paletteHigh.r - paletteLow.r),
   paletteLow.g + t * (paletteHigh.g - paletteLow.g),
   paletteLow.b + t * (paletteHigh.b - paletteLow.b)⟩

/-- The mid-scale color assigned when all attribute values coincide. -/
def midColor : Color := palette (1/2)

/-- A feature collection seen by the color mapper: named attribute columns,
one rational value per feature (the features are the row positions). -/
structure FeatureTable where
  cols : List (String × List ℚ)
deriving DecidableEq

/-- The attribute names present on the collection's schema. -/
def schemaNames (c : FeatureTable) : List String := c.cols.map (fun p => p.1)

/-- Column lookup by attribute name. -/
def lookupCol (c : FeatureTable) (a : String) : Option (List ℚ) :=
  (c.cols.find? (fun p => p.1 == a)).map (fun p => p.2)

/-- Minimum of an attribute column (`0` for an empty column). -/
def listMin : List ℚ → ℚ
  | [] => 0
  | x :: xs => xs.foldl min x

/-- Maximum of an attribute column (`0` for an empty column). -/
def listMax : List ℚ → ℚ
  | [] => 0
  | x :: xs => xs.foldl max x

/-- The color mapper's error kind (spec section 7). -/
inductive MapError where
  | attributeNotFound
deriving DecidableEq

/-- Modelled from the spec: `mapColors` of section 4.4 (the repository's
`add_hover_tooltips` lives in the absent utility module). Fails with
`AttributeNotFoundError` when the attribute is not on the schema; otherwise
computes the column's min and max, assigns every feature `midColor` when they
coincide, and otherwise maps each value's linear normalization to `[0,1]`
through the fixed palette. -/
def mapColors (c : FeatureTable) (a : String) : Except MapError (List Color) :=
  match lookupCol c a with
  | none => .error .attributeNotFound
  | some vals =>
      if listMin vals = listMax vals then
        .ok (vals.map (fun _ => midColor))
      else
        .ok (vals.map (fun v => palette ((v - listMin vals) / (listMax vals - listMin vals))))

/-! ## Python string normalization (`scripts/build_geojsons.py`, `tidy_name`,
and the `.str.strip()` calls of `app.py`)

`tidy_name` is a pipeline of five string transforms: replace `_` and `-` by
spaces, re.sub of a lowercase-"and"-uppercase run to a spaced " and ",
re.sub inserting a space before every uppercase letter not preceded by
whitespace, re.sub collapsing whitespace runs to single spaces, and a final
strip. Strings are modelled as their character lists; the regex substitutions
are embedded as left-to-right scans that track the previous character of the
scanned string, exactly as the regex engine's lookbehind does. -/

/-- The whitespace class of the Python regex `\s` and of `str.strip()`,
restricted to the ASCII range the data uses. -/
def pySpace (c : Char) : Bool :=
  c == ' ' || c == '\t' || c == '\n' || c == '\r' || c == '\x0b' || c == '\x0c'

/-- The regex class `[a-z]`. -/
def asciiLower (c : Char) : Bool := 'a' ≤ c && c ≤ 'z'

/-- The regex class `[A-Z]`. -/
def asciiUpper (c : Char) : Bool := 'A' ≤ c && c ≤ 'Z'

/-- `value.replace("_", " ").replace("-", " ")`. -/
def replaceSep (l : List Char) : List Char :=
  l.map (fun c => if c == '_' || c == '-' then ' ' else c)

/-- Whether the regex `(?<=[a-z])and(?=[A-Z])` matches at the current scan
position: the previous character `p` is a lowercase letter, the input starts
with `and`, and the character after it is uppercase. -/
def isAndMatch (p : Option Char) (l : List Char) : Bool :=
  match p, l with
  | some pc, c1 :: c2 :: c3 :: c4 :: _ =>
      asciiLower pc && c1 == 'a' && c2 == 'n' && c3 == 'd' && asciiUpper c4
  | _, _ => false

/-- Scan for `re.sub(r"(?<=[a-z])and(?=[A-Z])", " and ", s)`: `p` is the
character before the scan position in the scanned string (the lookbehind
context); on a match the literal replacement is emitted and scanning resumes
after the matched `and`. -/
def subAndGo : Option Char → List Char → List Char
  | _, [] => []
  | p, c :: rest =>
    if isAndMatch p (c :: rest) then
      ' ' :: 'a' :: 'n' :: 'd' :: ' ' :: subAndGo (some 'd') (rest.drop 2)
    else
      c :: subAndGo (some c) rest
termination_by _ l => l.length
decreasing_by
  all_goals simp only [List.length_cons, List.length_drop]
  all_goals omega

/-- `re.sub(r"(?<=[a-z])and(?=[A-Z])", " and ", s)`. -/
def subAnd (l : List Char) : List Char := subAndGo none l

/-- The negative lookbehind `(?<!\s)`: satisfied at the start of the string
and after any non-whitespace character. -/
def prevNotSpace : Option Char → Bool
  | none => true
  | some p => !pySpace p

/-- Scan for `re.sub(r"(?<!\s)(?=[A-Z])", " ", s)`: a space is inserted
before every uppercase letter whose predecessor in the scanned string is not
whitespace (or that starts the string). -/
def spaceUpperGo : Option Char → List Char → List Char
  | _, [] => []
  | p, c :: rest =>
    if asciiUpper c && prevNotSpace p then
      ' ' :: c :: spaceUpperGo (some c) rest
    else
      c :: spaceUpperGo (some c) rest

/-- `re.sub(r"(?<!\s)(?=[A-Z])", " ", s)`. -/
def spaceUpper (l : List Char) : List Char := spaceUpperGo none l

/-- Scan for `re.sub(r"\s+", " ", s)`: the flag records that the previous
input character belonged to a whitespace run already replaced by one space. -/
def collapseGo : Bool → List Char → List Char
  | _, [] => []
  | inRun, c :: rest =>
    if pySpace c then
      if inRun then collapseGo true rest
      else ' ' :: collapseGo true rest
    else
      c :: collapseGo false rest

/-- `re.sub(r"\s+", " ", s)`. -/
def collapseWs (l : List Char) : List Char := collapseGo false l

/-- Leading-whitespace removal (half of `str.strip()`). -/
def lstrip (l : List Char) : List Char := l.dropWhile pySpace

/-- Trailing-whitespace removal (the other half of `str.strip()`). -/
def rstrip (l : List Char) : List Char := (l.reverse.dropWhile pySpace).reverse

/-- `s.strip()`. -/
def pyStrip (l : List Char) : List Char := rstrip (lstrip l)

/-- `s.strip()` on strings, as used by `app.py` on the identifying columns. -/
def pyStripStr (s : String) : String := String.mk (pyStrip s.data)

/-- The whole `tidy_name` pipeline on a string's characters. -/
def tidyChars (l : List Char) : List Char :=
  pyStrip (collapseWs (spaceUpper (subAnd (replaceSep l))))

/-- A Python value reaching `tidy_name`: a string, or any non-string value
(`tag` stands for its identity), which the function returns unchanged. -/
inductive PyVal where
  | str (s : String)
  | other (tag : Nat)
deriving DecidableEq

/-- `tidy_name` of `scripts/build_geojsons.py`: non-strings pass through;
strings run the five-stage normalization pipeline. -/
def tidy_name : PyVal → PyVal
  | .str s => .str (String.mk (tidyChars s.data))
  | .other n => .other n

/-! ### Invariants of normalized strings, used to prove idempotence -/

/-- No separator characters (`_`, `-`) remain. -/
def noSep (l : List Char) : Prop := ∀ c ∈ l, c ≠ '_' ∧ c ≠ '-'

/-- Every whitespace character is a plain space. -/
def spacesOnly (l : List Char) : Prop := ∀ c ∈ l, pySpace c = true → c = ' '

/-- No two adjacent whitespace characters. -/
def noAdjSpace : List Char → Prop
  | a :: b :: rest => ¬(pySpace a = true ∧ pySpace b = true) ∧ noAdjSpace (b :: rest)
  | _ => True

/-- The first character, when present, is not whitespace. -/
def headNotSpace : List Char → Prop
  | [] => True
  | c :: _ => pySpace c = false

/-- The last character, when present, is not whitespace. -/
def lastNotSpace (l : List Char) : Prop := headNotSpace l.reverse

/-- Scanning from previous character `p`: every uppercase letter stands at
the start of the string or right after a plain space. -/
def upperSpaced : Option Char → List Char → Prop
  | _, [] => True
  | p, c :: rest =>
      (asciiUpper c = true → p = none ∨ p = some ' ') ∧ upperSpaced (some c) rest

/-- Scanning from previous character `p`: every uppercase letter stands
right after some whitespace character. -/
def upperAfterWs : Option Char → List Char → Prop
  | _, [] => True
  | p, c :: rest =>
      (asciiUpper c = true → ∃ x, p = some x ∧ pySpace x = true) ∧ upperAfterWs (some c) rest

/-! ## District loading with column-name fallback (`app.py`, `load_districts`)

`gpd.read_file` and the surrounding `try` of `app.py` are modelled by the
`Except` input: a parse failure arrives as `.error` and propagates (the
caller records it as the collection's unavailability). A parsed GeoJSON
arrives as its attribute table: named columns of string values. -/

/-- An attribute table: column names with their per-feature values. -/
abbrev Table := List (String × List String)

/-- Whether a column of this name exists (`"district" in districts_df.columns`). -/
def hasCol (t : Table) (c : String) : Bool := t.any (fun p => p.1 == c)

/-- `districts_df.rename(columns={src: dst})`. -/
def renameCol (t : Table) (src dst : String) : Table :=
  t.map (fun p => if p.1 == src then (dst, p.2) else p)

/-- `districts_df[c] = districts_df[c].str.strip()`. -/
def stripColumn (t : Table) (c : String) : Table :=
  t.map (fun p => if p.1 == c then (p.1, p.2.map pyStripStr) else p)

/-- `load_districts` of `app.py`: on a parsed table, rename `dtname` to
`district` when `district` is absent and `dtname` present, then strip
whitespace on the `district` column when it exists; a parse failure
propagates as the load error. -/
def load_districts (raw : Except String Table) : Except String Table :=
  match raw with
  | .error e => .error e
  | .ok df =>
      let df1 :=
        if !hasCol df "district" && hasCol df "dtname" then
          renameCol df "dtname" "district"
        else df
      let df2 := if hasCol df1 "district" then stripColumn df1 "district" else df1
      .ok df2

/-! ## Name-based selection (`app.py`, the `isin` filters) -/

/-- A feature as the selection filter sees it: its identifying attribute
and its geometry (an id standing for the polygon payload). -/
structure Feature where
  name : String
  geomId : Nat
deriving DecidableEq

/-- `states[states["State"].isin(selected_states)]` (and the district
counterpart): keep, in collection order, the features whose identifying
attribute is among the given names. -/
def selectByNames (coll : List Feature) (names : List String) : List Feature :=
  coll.filter (fun f => names.contains f.name)

/-! ## Connector geometry builder (spec section 4.3)

Modelled from the spec: `draw_map_lines_with_labels` lives in the absent
utility module; the builder below follows the contract of section 4.3.
Points are rational coordinate pairs, so every construction is exact. -/

/-- A planar point (longitude, latitude). -/
abbrev Pt := ℚ × ℚ

/-- The three connector styles. -/
inductive LineStyle where
  | straight
  | dashed
  | curved
deriving DecidableEq

/-- A polygon feature: its boundary ring's vertices. -/
structure PolyFeature where
  ring : List Pt
deriving DecidableEq

/-- Consecutive vertex pairs of a closed ring (each vertex with its cyclic
successor). -/
def cyclePairs (l : List Pt) : List (Pt × Pt) :=
  match l with
  | [] => []
  | x :: xs => l.zip (xs ++ [x])

/-- One shoelace cross term `x_i * y_j - x_j * y_i`. -/
def crossTerm (pq : Pt × Pt) : ℚ := pq.1.1 * pq.2.2 - pq.2.1 * pq.1.2

/-- Twice the signed area of the ring (shoelace formula). -/
def twiceArea (ring : List Pt) : ℚ := ((cyclePairs ring).map crossTerm).sum

/-- Modelled from the spec: the feature's anchor, its geometric centroid, or
a representative point (the first vertex, else the origin) when the geometry
is degenerate (zero signed area). -/
def centroid (f : PolyFeature) : Pt :=
  let a2 := twiceArea f.ring
  if a2 = 0 then f.ring.headD (0, 0)
  else
    (((cyclePairs f.ring).map (fun pq => (pq.1.1 + pq.2.1) * crossTerm pq)).sum / (3 * a2),
     ((cyclePairs f.ring).map (fun pq => (pq.1.2 + pq.2.2) * crossTerm pq)).sum / (3 * a2))

/-- A connector: its polyline geometry, the label anchor beside it, and the
style carried as rendering metadata. -/
structure Connector where
  points : List Pt
  labelAnchor : Pt
  style : LineStyle
deriving DecidableEq

/-- Midpoint of the straight segment. -/
def midpoint2 (a t : Pt) : Pt := ((a.1 + t.1) / 2, (a.2 + t.2) / 2)

/-- Modelled from the spec: the curve's control point, offset from the
segment midpoint perpendicularly by 20% of the segment length; direction and
magnitude are functions of (anchor, target) alone. -/
def curveControl (a t : Pt) : Pt :=
  ((midpoint2 a t).1 - (1 / 5) * (t.2 - a.2), (midpoint2 a t).2 + (1 / 5) * (t.1 - a.1))

/-- Fixed sampling resolution of the curved style. -/
def curveSampleCount : Nat := 31

/-- Quadratic interpolation between anchor, control point and target. -/
def bezierPoint (a c t : Pt) (u : ℚ) : Pt :=
  ((1 - u) ^ 2 * a.1 + 2 * u * (1 - u) * c.1 + u ^ 2 * t.1,
   (1 - u) ^ 2 * a.2 + 2 * u * (1 - u) * c.2 + u ^ 2 * t.2)

/-- The curved connector's sample points at the fixed resolution. -/
def curvePoints (a t : Pt) : List Pt :=
  (List.range curveSampleCount).map
    (fun i => bezierPoint a (curveControl a t) t ((i : ℚ) / ((curveSampleCount : ℚ) - 1)))

/-- The slight offset keeping the label clear of the line. -/
def labelShift : Pt := (1 / 4, 1 / 4)

/-- Label anchor: the segment midpoint (straight, dashed) or the parametric
midpoint sample (curved), shifted by `labelShift`. -/
def connectorLabel (pts : List Pt) (a t : Pt) (st : LineStyle) : Pt :=
  match st with
  | .curved =>
      let m := pts.getD (curveSampleCount / 2) (midpoint2 a t)
      (m.1 + labelShift.1, m.2 + labelShift.2)
  | _ => ((midpoint2 a t).1 + labelShift.1, (midpoint2 a t).2 + labelShift.2)

/-- One connector for an (anchor, target) pair under a style. The dashed
style reuses the straight two-point geometry and differs only in the style
tag. -/
def mkConnector (a t : Pt) (st : LineStyle) : Connector :=
  let pts :=
    match st with
    | .straight => [a, t]
    | .dashed => [a, t]
    | .curved => curvePoints a t
  { points := pts, labelAnchor := connectorLabel pts a t st, style := st }

/-- Modelled from the spec: `buildConnectors` of section 4.3. One connector
per ordered (selected feature, target) pair; a null or empty target list
yields the empty sequence. `entropy` stands for the process's ambient
randomness source (`app.py` imports `random`); per the spec the curve shape
must not depend on it, and indeed no stage reads it. -/
def buildConnectors (entropy : Nat → ℚ) (sel : List PolyFeature)
    (targets : Option (List Pt)) (st : LineStyle) : List Connector :=
  match targets with
  | none => []
  | some ts => sel.flatMap (fun f => ts.map (fun t => mkConnector (centroid f) t st))

/-! ## CRS-aware buffer engine (spec section 4.2)

Modelled from the spec: `buffer_geometries` lives in the absent utility
module. Geometries are point sets of the Euclidean plane; the projection
into metric units is the linear meters-per-degree scaling of an
equal-distance projection, the planar buffer is dilation by a closed disk of
the metric radius, and the result is reprojected back. -/

/-- A point of the projected plane. -/
abbrev GeoPt := EuclideanSpace ℝ (Fin 2)

/-- A geometry: a set of plane points. -/
abbrev Geom := Set GeoPt

/-- Meters per degree of the equal-distance projection. -/
def metersPerDegree : ℝ := 111320

/-- Reprojection of geographic coordinates into metric units. -/
noncomputable def projFwd (p : GeoPt) : GeoPt := fun i => metersPerDegree * p i

/-- Reprojection back into geographic coordinates. -/
noncomputable def projInv (p : GeoPt) : GeoPt := fun i => p i / metersPerDegree

/-- Planar buffer in metric units: dilation by the closed disk of radius `d`. -/
def dilate (d : ℝ) (s : Geom) : Geom := {p | ∃ q ∈ s, dist p q ≤ d}

/-- Buffer of one geometry by `distanceKm` kilometers: project, dilate by
`distanceKm * 1000` meters, project back. -/
noncomputable def bufferOne (g : Geom) (distanceKm : ℝ) : Geom :=
  Set.image projInv (dilate (distanceKm * 1000) (Set.image projFwd g))

/-- Modelled from the spec: `buffer_geometries` buffers each geometry of the
selection independently. -/
noncomputable def buffer_geometries (sel : List Geom) (distanceKm : ℝ) : List Geom :=
  sel.map (fun g => bufferOne g distanceKm)

/-- The area of a geometry: planar Lebesgue measure. -/
noncomputable def area (g : Geom) : ENNReal := MeasureTheory.volume g

/-- Combined area of a selection's geometries (the per-feature areas summed,
matching the per-feature independence of the buffer). -/
noncomputable def totalArea (l : List Geom) : ENNReal := (l.map area).sum

/-! ### Helper lemmas about column minima and maxima -/

theorem foldl_min_le_init (xs : List ℚ) : ∀ a : ℚ, xs.foldl min a ≤ a := by
  induction xs with
  | nil => intro a; exact le_refl a
  | cons y ys ih =>
      intro a
      calc (y :: ys).foldl min a = ys.foldl min (min a y) := rfl
        _ ≤ min a y := ih (min a y)
        _ ≤ a := min_le_left a y

theorem foldl_min_le_mem (xs : List ℚ) :
    ∀ a : ℚ, ∀ v ∈ xs, xs.foldl min a ≤ v := by
  induction xs with
  | nil => intro a v hv; exact absurd hv (List.not_mem_nil v)
  | cons y ys ih =>
      intro a v hv
      rcases List.mem_cons.mp hv with h | h
      · subst h
        calc (v :: ys).foldl min a = ys.foldl min (min a v) := rfl
          _ ≤ min a v := foldl_min_le_init ys (min a v)
          _ ≤ v := min_le_right a v
      · exact ih (min a y) v h

theorem foldl_min_mem (xs : List ℚ) :
    ∀ a : ℚ, xs.foldl min a ∈ a :: xs := by
  induction xs with
  | nil => intro a; exact List.mem_singleton.mpr rfl
  | cons y ys ih =>
      intro a
      have h := ih (min a y)
      rcases List.mem_cons.mp h with h' | h'
      · rcases min_choice a y with hc | hc
        · rw [show (y :: ys).foldl min a = ys.foldl min (min a y) from rfl, h', hc]
          exact List.mem_cons_self a (y :: ys)
        · rw [show (y :: ys).foldl min a = ys.foldl min (min a y) from rfl, h', hc]
          exact List.mem_cons.mpr (Or.inr (List.mem_cons_self y ys))
      · exact List.mem_cons.mpr (Or.inr (List.mem_cons.mpr (Or.inr h')))

theorem listMin_le (vals : List ℚ) (v : ℚ) (hv : v ∈ vals) : listMin vals ≤ v := by
  cases vals with
  | nil => exact absurd hv (List.not_mem_nil v)
  | cons x xs =>
      rcases List.mem_cons.mp hv with h | h
      · subst h; exact foldl_min_le_init xs v
      · exact foldl_min_le_mem xs x v h

theorem listMin_mem (vals : List ℚ) (h : vals ≠ []) : listMin vals ∈ vals := by
  cases vals with
  | nil => exact absurd rfl h
  | cons x xs => exact foldl_min_mem xs x

theorem foldl_max_ge_init (xs : List ℚ) : ∀ a : ℚ, a ≤ xs.foldl max a := by
  induction xs with
  | nil => intro a; exact le_refl a
  | cons y ys ih =>
      intro a
      calc a ≤ max a y := le_max_left a y
        _ ≤ ys.foldl max (max a y) := ih (max a y)
        _ = (y :: ys).foldl max a := rfl

theorem foldl_max_ge_mem (xs : List ℚ) :
    ∀ a : ℚ, ∀ v ∈ xs, v ≤ xs.foldl max a := by
  induction xs with
  | nil => intro a v hv; exact absurd hv (List.not_mem_nil v)
  | cons y ys ih =>
      intro a v hv
      rcases List.mem_cons.mp hv with h | h
      · subst h
        calc v ≤ max a v := le_max_right a v
          _ ≤ ys.foldl max (max a v) := foldl_max_ge_init ys (max a v)
          _ = (v :: ys).foldl max a := rfl
      · exact ih (max a y) v h

theorem foldl_max_mem (xs : List ℚ) :
    ∀ a : ℚ, xs.foldl max a ∈ a :: xs := by
  induction xs with
  | nil => intro a; exact List.mem_singleton.mpr rfl
  | cons y ys ih =>
      intro a
      have h := ih (max a y)
      rcases List.mem_cons.mp h with h' | h'
      · rcases max_choice a y with hc | hc
        · rw [show (y :: ys).foldl max a = ys.foldl max (max a y) from rfl, h', hc]
          exact List.mem_cons_self a (y :: ys)
        · rw [show (y :: ys).foldl max a = ys.foldl max (max a y) from rfl, h', hc]
          exact List.mem_cons.mpr (Or.inr (List.mem_cons_self y ys))
      · exact List.mem_cons.mpr (Or.inr (List.mem_cons.mpr (Or.inr h')))

theorem le_listMax (vals : List ℚ) (v : ℚ) (hv : v ∈ vals) : v ≤ listMax vals := by
  cases vals with
  | nil => exact absurd hv (List.not_mem_nil v)
  | cons x xs =>
      rcases List.mem_cons.mp hv with h | h
      · subst h; exact foldl_max_ge_init xs v
      · exact foldl_max_ge_mem xs x v h

theorem listMax_mem (vals : List ℚ) (h : vals ≠ []) : listMax vals ∈ vals := by
  cases vals with
  | nil => exact absurd rfl h
  | cons x xs => exact foldl_max_mem xs x

theorem zip_map_snd {α β : Type} (f : α → β) (l : List α) :
    ∀ p ∈ l.zip (l.map f), p.2 = f p.1 := by
  induction l with
  | nil => intro p hp; exact absurd hp (List.not_mem_nil p)
  | cons x xs ih =>
      intro p hp
      rcases List.mem_cons.mp hp with h | h
      · subst h; rfl
      · exact ih p h

theorem mem_zip_map {α β : Type} (f : α → β) (l : List α) (v : α) (hv : v ∈ l) :
    (v, f v) ∈ l.zip (l.map f) := by
  induction l with
  | nil => exact absurd hv (List.not_mem_nil v)
  | cons x xs ih =>
      rcases List.mem_cons.mp hv with h | h
      · subst h; exact List.mem_cons_self _ _
      · exact List.mem_cons.mpr (Or.inr (ih h))



/-! ### Choropleth mapper: boundary behavior and error characterization -/

theorem palette_zero_eq : palette 0 = paletteLow := by
  norm_num [palette, paletteLow, paletteHigh, Color.mk.injEq]

theorem palette_one_eq : palette 1 = paletteHigh := by
  norm_num [palette, paletteLow, paletteHigh, Color.mk.injEq]

theorem lookupCol_eq_none_iff (c : FeatureTable) (a : String) :
    lookupCol c a = none ↔ a ∉ schemaNames c := by
  simp only [lookupCol, schemaNames, Option.map_eq_none', List.find?_eq_none,
    beq_iff_eq, List.mem_map, not_exists]
  constructor
  · intro h p hp
    exact h p hp.1 hp.2
  · intro h p hp heq
    exact h p ⟨hp, heq⟩

/-- C4: with a numeric attribute present, `mapColors` gives every feature the
identical mid-scale color when the column's min equals its max; otherwise it
sends each value's linear normalization through the palette so values lie in
`[0,1]`, every min-valued feature gets `palette 0`, every max-valued feature
gets `palette 1`, and both extreme colors are attained. -/
theorem mapColors_boundary (c : FeatureTable) (a : String) (vals : List ℚ)
    (h : lookupCol c a = some vals) (hne : vals ≠ []) :
    (listMin vals = listMax vals →
      mapColors c a = .ok (vals.map (fun _ => midColor))) ∧
    (listMin vals ≠ listMax vals →
      ∃ cs, mapColors c a = .ok cs ∧ cs.length = vals.length ∧
        (∀ p ∈ vals.zip cs, ∃ t, 0 ≤ t ∧ t ≤ 1 ∧ p.2 = palette t) ∧
        (∀ p ∈ vals.zip cs, p.1 = listMin vals → p.2 = palette 0) ∧
        (∀ p ∈ vals.zip cs, p.1 = listMax vals → p.2 = palette 1) ∧
        (listMin vals, palette 0) ∈ vals.zip cs ∧
        (listMax vals, palette 1) ∈ vals.zip cs) := by
  have hmin := listMin_mem vals hne
  have hmax := listMax_mem vals hne
  constructor
  · intro heq
    simp only [mapColors, h]
    rw [if_pos heq]
  · intro hneq
    have hle : listMin vals ≤ listMax vals := listMin_le vals _ hmax
    have hlt : listMin vals < listMax vals := lt_of_le_of_ne hle hneq
    have hd : (0 : ℚ) < listMax vals - listMin vals := sub_pos.mpr hlt
    set f : ℚ → Color :=
      fun v => palette ((v - listMin vals) / (listMax vals - listMin vals)) with hf
    refine ⟨vals.map f, ?_, by simp, ?_, ?_, ?_, ?_, ?_⟩
    · simp only [mapColors, h]
      rw [if_neg hneq]
    · intro p hp
      have h2 := zip_map_snd f vals p hp
      have h1 : p.1 ∈ vals := (List.of_mem_zip hp).1
      refine ⟨(p.1 - listMin vals) / (listMax vals - listMin vals), ?_, ?_, by rw [h2]⟩
      · exact div_nonneg (sub_nonneg.mpr (listMin_le vals _ h1)) hd.le
      · rw [div_le_one hd]
        exact sub_le_sub_right (le_listMax vals _ h1) _
    · intro p hp hpmin
      have h2 := zip_map_snd f vals p hp
      rw [h2, hf]
      simp [hpmin]
    · intro p hp hpmax
      have h2 := zip_map_snd f vals p hp
      rw [h2, hf]
      simp [hpmax, div_self hd.ne']
    · have hm := mem_zip_map f vals _ hmin
      simpa [hf, sub_self, zero_div] using hm
    · have hm := mem_zip_map f vals _ hmax
      simpa [hf, div_self hd.ne'] using hm

theorem mapColors_boundary_witness :
    mapColors ⟨[("idx", [7, 7])]⟩ "idx" = .ok ([(7 : ℚ), 7].map (fun _ => midColor)) :=
  (mapColors_boundary ⟨[("idx", [7, 7])]⟩ "idx" [7, 7] (by rfl) (by decide)).1 (by decide)

/-- C5: `mapColors` returns `AttributeNotFoundError` exactly when the
attribute is missing from the collection's schema; that is the only error it
can return; and on success the coloring is total, one color per feature of
the full column (no partial binding; the mapper is a pure function of the
collection, which it never mutates). -/
theorem mapColors_error_characterization (c : FeatureTable) (a : String) :
    (mapColors c a = .error .attributeNotFound ↔ a ∉ schemaNames c) ∧
    (∀ e, mapColors c a = .error e → e = .attributeNotFound) ∧
    (∀ cs, mapColors c a = .ok cs →
      a ∈ schemaNames c ∧ ∃ vals, lookupCol c a = some vals ∧ cs.length = vals.length) := by
  cases hcase : lookupCol c a with
  | none =>
      have hnot : a ∉ schemaNames c := (lookupCol_eq_none_iff c a).mp hcase
      have herr : mapColors c a = .error .attributeNotFound := by
        simp only [mapColors, hcase]
      refine ⟨⟨fun _ => hnot, fun _ => herr⟩, fun e he => ?_, fun cs hcs => ?_⟩
      · have he2 := herr.symm.trans he
        exact ((Except.error.injEq _ _).mp he2).symm
      · exact Except.noConfusion (herr.symm.trans hcs)
  | some vals =>
      have hmem : a ∈ schemaNames c := by
        by_contra hnot
        have h0 := (lookupCol_eq_none_iff c a).mpr hnot
        rw [h0] at hcase
        exact Option.noConfusion hcase
      have hok : ∃ cs, mapColors c a = .ok cs ∧ cs.length = vals.length := by
        by_cases hmm : listMin vals = listMax vals
        · exact ⟨_, by simp only [mapColors, hcase]; rw [if_pos hmm], by simp⟩
        · exact ⟨_, by simp only [mapColors, hcase]; rw [if_neg hmm], by simp⟩
      obtain ⟨cs0, hcs0, hlen0⟩ := hok
      refine ⟨⟨fun he => ?_, fun hnot => absurd hmem hnot⟩, fun e he => ?_, fun cs hcs => ?_⟩
      · exact absurd (hcs0.symm.trans he) (fun h => Except.noConfusion h)
      · exact Except.noConfusion (hcs0.symm.trans he)
      · have : cs0 = cs := (Except.ok.injEq _ _).mp (hcs0.symm.trans hcs)
        exact ⟨hmem, vals, rfl, this ▸ hlen0⟩

/-! ### District loader: fallback resolution and error propagation -/

theorem hasCol_renameCol_dst (t : Table) (src dst : String) (h : hasCol t src = true) :
    hasCol (renameCol t src dst) dst = true := by
  unfold hasCol renameCol
  rw [List.any_map, List.any_eq_true]
  rw [hasCol, List.any_eq_true] at h
  obtain ⟨p, hp, hps⟩ := h
  refine ⟨p, hp, ?_⟩
  simp only [Function.comp]
  rw [if_pos hps]
  exact beq_self_eq_true dst

/-- C6 counterexample: a parsed table with neither a `district` nor a
`dtname` column loads successfully and unchanged; `load_districts` reports
no error although no usable identifying column exists after the fallback. -/
theorem load_districts_missing_col_returns_ok :
    load_districts (.ok [("foo", ["x"])]) = .ok [("foo", ["x"])] ∧
    hasCol [("foo", ["x"])] "district" = false ∧
    hasCol [("foo", ["x"])] "dtname" = false ∧
    ∀ e, load_districts (.ok [("foo", ["x"])]) ≠ .error e := by
  have h1 : load_districts (.ok [("foo", ["x"])]) = .ok [("foo", ["x"])] := by rfl
  refine ⟨h1, by rfl, by rfl, fun e he => ?_⟩
  rw [h1] at he
  exact Except.noConfusion he

/-- C6 amended: `load_districts` resolves the identifying column by trying
the canonical name `district` first and the alias `dtname` second, and fails
exactly when the source cannot be parsed (the parse error propagates); a
parsed table always loads successfully, and when neither name matches it is
returned without an identifying column (the caller surfaces a warning). -/
theorem load_districts_fallback :
    (∀ e, load_districts (.error e) = .error e) ∧
    (∀ t : Table, ∃ t2, load_districts (.ok t) = .ok t2) ∧
    (∀ t : Table, hasCol t "district" = true →
      load_districts (.ok t) = .ok (stripColumn t "district")) ∧
    (∀ t : Table, hasCol t "district" = false → hasCol t "dtname" = true →
      load_districts (.ok t) =
        .ok (stripColumn (renameCol t "dtname" "district") "district")) ∧
    (∀ t : Table, hasCol t "district" = false → hasCol t "dtname" = false →
      load_districts (.ok t) = .ok t) := by
  refine ⟨fun e => rfl, fun t => ⟨_, rfl⟩, ?_, ?_, ?_⟩
  · intro t h
    simp [load_districts, h]
  · intro t h1 h2
    have h3 : hasCol (renameCol t "dtname" "district") "district" = true :=
      hasCol_renameCol_dst t "dtname" "district" h2
    simp [load_districts, h1, h2, h3]
  · intro t h1 h2
    simp [load_districts, h1, h2]

/-! ### Selection filter -/

/-- C7: `selectByNames` returns exactly the order-preserving subsequence of
features whose identifying attribute lies in the given name set: the result
is a sublist of the collection, membership is characterized by the name
filter, and a name matching no feature changes nothing (it is silently
dropped; the filter is total, so no error is possible). -/
theorem selectByNames_characterization (coll : List Feature) (names : List String) :
    List.Sublist (selectByNames coll names) coll ∧
    (∀ f ∈ selectByNames coll names, f ∈ coll ∧ f.name ∈ names) ∧
    (∀ f ∈ coll, f.name ∈ names → f ∈ selectByNames coll names) ∧
    (∀ n ∈ names, (∀ f ∈ coll, f.name ≠ n) →
      selectByNames coll names = selectByNames coll (names.erase n)) := by
  refine ⟨List.filter_sublist coll, ?_, ?_, ?_⟩
  · intro f hf
    rw [selectByNames, List.mem_filter] at hf
    exact ⟨hf.1, by simpa using hf.2⟩
  · intro f hf hname
    rw [selectByNames, List.mem_filter]
    exact ⟨hf, by simpa using hname⟩
  · intro n _ hnone
    rw [selectByNames, selectByNames]
    apply List.filter_congr
    intro f hf
    have hne : f.name ≠ n := hnone f hf
    have : f.name ∈ names.erase n ↔ f.name ∈ names := List.mem_erase_of_ne hne
    rw [Bool.eq_iff_iff]
    simpa using this.symm

/-! ### Connector builder -/

/-- C3: `buildConnectors` yields exactly one connector per ordered (selected
feature, target) pair, so its length is `len(S) * len(T)`; a null or empty
target list yields the empty sequence, not an error. -/
theorem buildConnectors_count :
    ∀ (entropy : Nat → ℚ) (sel : List PolyFeature) (ts : List Pt) (st : LineStyle),
      (buildConnectors entropy sel (some ts) st).length = sel.length * ts.length ∧
      buildConnectors entropy sel none st = [] ∧
      buildConnectors entropy sel (some []) st = [] := by
  intro entropy sel ts st
  refine ⟨?_, rfl, ?_⟩
  · induction sel with
    | nil => simp [buildConnectors]
    | cons f fs ih =>
        simp only [buildConnectors, List.flatMap_cons, List.length_append,
          List.length_map, List.length_cons] at ih ⊢
        rw [ih]
        ring
  · induction sel with
    | nil => rfl
    | cons f fs ih =>
        simp only [buildConnectors, List.flatMap_cons, List.map_nil,
          List.nil_append] at ih ⊢
        exact ih

/-- C8: for every (anchor, target) pair the dashed connector's geometry is
identical to the straight one: the same two-point segment and the same label
anchor; the dash pattern is carried only by the style tag. -/
theorem dashed_matches_straight : ∀ a t : Pt,
    (mkConnector a t .dashed).points = (mkConnector a t .straight).points ∧
    (mkConnector a t .dashed).points = [a, t] ∧
    (mkConnector a t .dashed).points.length = 2 ∧
    (mkConnector a t .dashed).labelAnchor = (mkConnector a t .straight).labelAnchor ∧
    (mkConnector a t .dashed).style = .dashed ∧
    (mkConnector a t .straight).style = .straight := by
  intro a t
  exact ⟨rfl, rfl, rfl, rfl, rfl, rfl⟩

/-- C9: the curved construction is deterministic: the builder's output does
not depend on the ambient randomness source, so two calls on the same
(selection, targets) produce identical curve geometry, and each curved
connector's sample points are the fixed function `curvePoints` of its
(anchor, target) pair alone. -/
theorem curved_deterministic :
    ∀ (entropy1 entropy2 : Nat → ℚ) (sel : List PolyFeature) (targets : Option (List Pt)),
      buildConnectors entropy1 sel targets .curved =
        buildConnectors entropy2 sel targets .curved ∧
      (∀ a t : Pt, (mkConnector a t .curved).points = curvePoints a t) := by
  intro entropy1 entropy2 sel targets
  exact ⟨rfl, fun a t => rfl⟩

/-! ### Buffer engine -/

theorem projInv_projFwd (p : GeoPt) : projInv (projFwd p) = p := by
  funext i
  unfold projInv projFwd
  rw [mul_div_cancel_left₀ _ (by norm_num [metersPerDegree])]

theorem dilate_zero (s : Geom) : dilate 0 s = s := by
  ext p
  constructor
  · rintro ⟨q, hq, hd⟩
    rwa [dist_le_zero.mp hd]
  · intro hp
    exact ⟨p, hp, by simp⟩

theorem bufferOne_zero (g : Geom) : bufferOne g 0 = g := by
  unfold bufferOne
  rw [zero_mul, dilate_zero, ← Set.image_comp]
  have hcomp : projInv ∘ projFwd = id := funext projInv_projFwd
  rw [hcomp]
  exact Set.image_id g

/-- C1: buffering a selection by distance 0 km returns the input geometry
unchanged: the dilation radius `0 * 1000` keeps each point set fixed and the
projection round trip is the identity, so `buffer_geometries S 0 = S`
(geometry equality, per feature). -/
theorem buffer_zero_identity : ∀ sel : List Geom, buffer_geometries sel 0 = sel := by
  intro sel
  unfold buffer_geometries
  rw [List.map_congr_left (fun g _ => bufferOne_zero g)]
  exact List.map_id sel

theorem dilate_mono (s : Geom) (d1 d2 : ℝ) (h : d1 ≤ d2) : dilate d1 s ⊆ dilate d2 s := by
  rintro p ⟨q, hq, hd⟩
  exact ⟨q, hq, hd.trans h⟩

theorem bufferOne_mono (g : Geom) (d1 d2 : ℝ) (h : d1 ≤ d2) :
    bufferOne g d1 ⊆ bufferOne g d2 :=
  Set.image_subset _
    (dilate_mono _ _ _ (mul_le_mul_of_nonneg_right h (by norm_num)))

/-- C2: the buffered area is monotonically non-decreasing in the buffer
distance: for non-negative `d1 ≤ d2` each feature's dilation grows with the
radius, so the selection's combined buffered area at `d1` is at most the one
at `d2`. -/
theorem buffer_area_monotone (sel : List Geom) (d1 d2 : ℝ)
    (h0 : 0 ≤ d1) (h : d1 ≤ d2) :
    totalArea (buffer_geometries sel d1) ≤ totalArea (buffer_geometries sel d2) := by
  unfold totalArea buffer_geometries
  rw [List.map_map, List.map_map]
  apply List.sum_le_sum
  intro g hg
  simp only [Function.comp]
  exact MeasureTheory.measure_mono (bufferOne_mono g d1 d2 h)

theorem buffer_area_monotone_witness :
    totalArea (buffer_geometries [(Set.univ : Geom)] 0) ≤
      totalArea (buffer_geometries [(Set.univ : Geom)] 1) :=
  buffer_area_monotone [(Set.univ : Geom)] 0 1 le_rfl zero_le_one


/-! ### `tidy_name` idempotence: character facts -/

theorem pySpace_space : pySpace ' ' = true := by decide

theorem upper_not_space_aux (c : Char) (h : pySpace c = true) : asciiUpper c = false := by
  have h2 : ((((c = ' ' ∨ c = '\t') ∨ c = '\n') ∨ c = '\r') ∨ c = '\x0b') ∨ c = '\x0c' := by
    simpa [pySpace, Bool.or_eq_true, beq_iff_eq] using h
  rcases h2 with ⟨⟨⟨⟨rfl | rfl⟩ | rfl⟩ | rfl⟩ | rfl⟩ | rfl <;> decide

theorem upper_not_space (c : Char) (h : asciiUpper c = true) : pySpace c = false := by
  cases hs : pySpace c
  · rfl
  · have h2 := upper_not_space_aux c hs
    rw [h] at h2
    exact Bool.noConfusion h2

/-! ### `tidy_name` idempotence: the "and" substitution -/

theorem isAndMatch_true_elim (p : Option Char) (l : List Char)
    (h : isAndMatch p l = true) :
    ∃ pc c4 r, p = some pc ∧ l = 'a' :: 'n' :: 'd' :: c4 :: r ∧
      asciiLower pc = true ∧ asciiUpper c4 = true := by
  cases p with
  | none => simp [isAndMatch] at h
  | some pc =>
      rcases l with _ | ⟨c1, _ | ⟨c2, _ | ⟨c3, _ | ⟨c4, r⟩⟩⟩⟩
      · simp [isAndMatch] at h
      · simp [isAndMatch] at h
      · simp [isAndMatch] at h
      · simp [isAndMatch] at h
      · simp only [isAndMatch, Bool.and_eq_true, beq_iff_eq] at h
        obtain ⟨⟨⟨⟨hlow, h1⟩, h2⟩, h3⟩, hup⟩ := h
        subst h1
        subst h2
        subst h3
        exact ⟨pc, c4, r, rfl, rfl, hlow, hup⟩

theorem isAndMatch_false_of_upperSpaced (p : Option Char) (l : List Char)
    (h : upperSpaced p l) : isAndMatch p l = false := by
  cases hb : isAndMatch p l
  · rfl
  · exfalso
    obtain ⟨pc, c4, r, hp, hl, hlow, hup⟩ := isAndMatch_true_elim p l hb
    subst hl
    rcases h.2.2.2.1 hup with h5 | h5
    · exact Option.noConfusion h5
    · have h6 : ('d' : Char) = ' ' := (Option.some.injEq _ _).mp h5
      exact absurd h6 (by decide)

theorem subAndGo_id (l : List Char) : ∀ p : Option Char,
    upperSpaced p l → subAndGo p l = l := by
  induction l with
  | nil => intro p _; simp [subAndGo]
  | cons c rest ih =>
      intro p h
      have hm := isAndMatch_false_of_upperSpaced p (c :: rest) h
      simp only [subAndGo, hm, Bool.false_eq_true, if_false]
      rw [ih (some c) h.2]

theorem subAndGo_mem : ∀ (n : Nat) (l : List Char) (p : Option Char),
    l.length ≤ n → ∀ x ∈ subAndGo p l, x = ' ' ∨ x ∈ l := by
  intro n
  induction n with
  | zero =>
      intro l p hl x hx
      have h0 : l = [] := List.length_eq_zero.mp (Nat.le_zero.mp hl)
      subst h0
      simp [subAndGo] at hx
  | succ n ih =>
      intro l p hl x hx
      cases l with
      | nil => simp [subAndGo] at hx
      | cons c rest =>
          by_cases hm : isAndMatch p (c :: rest) = true
          · obtain ⟨pc, c4, r, hp, hshape, hlow, hup⟩ := isAndMatch_true_elim p _ hm
            have hc : c = 'a' := (List.cons.injEq _ _ _ _).mp hshape |>.1
            have hrest : rest = 'n' :: 'd' :: c4 :: r :=
              (List.cons.injEq _ _ _ _).mp hshape |>.2
            simp only [subAndGo, hm, if_true] at hx
            have hdrop : rest.drop 2 = c4 :: r := by rw [hrest]; rfl
            rw [hdrop] at hx
            have hlen : (c4 :: r).length ≤ n := by
              have := hl
              rw [hrest] at this
              simp only [List.length_cons] at this ⊢
              omega
            rcases List.mem_cons.mp hx with h1 | hx
            · exact Or.inl h1
            rcases List.mem_cons.mp hx with h1 | hx
            · subst h1
              exact Or.inr (by rw [hc]; exact List.mem_cons_self _ _)
            rcases List.mem_cons.mp hx with h1 | hx
            · subst h1
              exact Or.inr (List.mem_cons_of_mem c (by rw [hrest]; exact List.mem_cons_self _ _))
            rcases List.mem_cons.mp hx with h1 | hx
            · subst h1
              exact Or.inr (List.mem_cons_of_mem c
                (by rw [hrest]; exact List.mem_cons_of_mem _ (List.mem_cons_self _ _)))
            rcases List.mem_cons.mp hx with h1 | hx
            · exact Or.inl h1
            · rcases ih (c4 :: r) (some 'd') hlen x hx with h1 | h1
              · exact Or.inl h1
              · refine Or.inr (List.mem_cons_of_mem c ?_)
                rw [hrest]
                exact List.mem_cons_of_mem _ (List.mem_cons_of_mem _ h1)
          · simp only [subAndGo, hm, if_false] at hx
            rcases List.mem_cons.mp hx with h1 | hx
            · exact Or.inr (h1 ▸ List.mem_cons_self c rest)
            · have hlen : rest.length ≤ n := by
                simp only [List.length_cons] at hl
                omega
              rcases ih rest (some c) hlen x hx with h1 | h1
              · exact Or.inl h1
              · exact Or.inr (List.mem_cons_of_mem c h1)

theorem subAnd_mem (l : List Char) (x : Char) (hx : x ∈ subAnd l) :
    x = ' ' ∨ x ∈ l :=
  subAndGo_mem l.length l none (le_refl _) x hx

/-! ### `tidy_name` idempotence: the uppercase-spacing substitution -/

theorem spaceUpperGo_mem : ∀ (l : List Char) (p : Option Char),
    ∀ x ∈ spaceUpperGo p l, x = ' ' ∨ x ∈ l := by
  intro l
  induction l with
  | nil => intro p x hx; simp [spaceUpperGo] at hx
  | cons c rest ih =>
      intro p x hx
      by_cases hcond : (asciiUpper c && prevNotSpace p) = true
      · simp only [spaceUpperGo, hcond, if_true] at hx
        rcases List.mem_cons.mp hx with h1 | hx
        · exact Or.inl h1
        rcases List.mem_cons.mp hx with h1 | hx
        · exact Or.inr (h1 ▸ List.mem_cons_self c rest)
        · rcases ih (some c) x hx with h1 | h1
          · exact Or.inl h1
          · exact Or.inr (List.mem_cons_of_mem c h1)
      · simp only [spaceUpperGo, hcond, if_false] at hx
        rcases List.mem_cons.mp hx with h1 | hx
        · exact Or.inr (h1 ▸ List.mem_cons_self c rest)
        · rcases ih (some c) x hx with h1 | h1
          · exact Or.inl h1
          · exact Or.inr (List.mem_cons_of_mem c h1)

theorem spaceUpperGo_id (l : List Char) : ∀ x : Char,
    upperSpaced (some x) l → spaceUpperGo (some x) l = l := by
  induction l with
  | nil => intro x _; rfl
  | cons c rest ih =>
      intro x h
      have hcond : (asciiUpper c && prevNotSpace (some x)) = false := by
        cases hu : asciiUpper c
        · simp
        · rcases h.1 hu with h1 | h1
          · exact Option.noConfusion h1
          · have hxe : x = ' ' := (Option.some.injEq _ _).mp h1
            subst hxe
            simp [prevNotSpace, pySpace_space]
      simp only [spaceUpperGo, hcond, Bool.false_eq_true, if_false]
      rw [ih c h.2]

theorem uaw_spaceUpperGo : ∀ (l : List Char) (p : Option Char),
    upperAfterWs p (spaceUpperGo p l) := by
  intro l
  induction l with
  | nil => intro p; simp [spaceUpperGo, upperAfterWs]
  | cons c rest ih =>
      intro p
      by_cases hcond : (asciiUpper c && prevNotSpace p) = true
      · simp only [spaceUpperGo, hcond, if_true]
        exact ⟨fun h => absurd h (by decide),
          fun _ => ⟨' ', rfl, pySpace_space⟩, ih (some c)⟩
      · simp only [spaceUpperGo, hcond, if_false]
        refine ⟨fun hup => ?_, ih (some c)⟩
        cases p with
        | none =>
            exfalso
            apply hcond
            simp [hup, prevNotSpace]
        | some pc =>
            refine ⟨pc, rfl, ?_⟩
            cases hs : pySpace pc
            · exfalso
              apply hcond
              simp [hup, prevNotSpace, hs]
            · rfl


/-! ### `tidy_name` idempotence: the whitespace collapse -/

theorem noAdjSpace_tail (c : Char) (l : List Char) (h : noAdjSpace (c :: l)) :
    noAdjSpace l := by
  cases l with
  | nil => trivial
  | cons b r => exact h.2

theorem noAdjSpace_cons (c : Char) (l : List Char) (h : noAdjSpace l)
    (hc : pySpace c = false ∨ headNotSpace l) : noAdjSpace (c :: l) := by
  cases l with
  | nil => trivial
  | cons b r =>
      refine ⟨fun hcb => ?_, h⟩
      rcases hc with hc | hc
      · rw [hc] at hcb
        exact Bool.noConfusion hcb.1
      · have hb : pySpace b = false := hc
        rw [hb] at hcb
        exact Bool.noConfusion hcb.2

theorem collapseGo_mem : ∀ (l : List Char) (flag : Bool),
    ∀ x ∈ collapseGo flag l, x = ' ' ∨ x ∈ l := by
  intro l
  induction l with
  | nil => intro flag x hx; simp [collapseGo] at hx
  | cons c rest ih =>
      intro flag x hx
      cases hc : pySpace c
      · simp only [collapseGo, hc, Bool.false_eq_true, if_false] at hx
        rcases List.mem_cons.mp hx with h1 | hx
        · exact Or.inr (h1 ▸ List.mem_cons_self c rest)
        · rcases ih false x hx with h1 | h1
          · exact Or.inl h1
          · exact Or.inr (List.mem_cons_of_mem c h1)
      · cases flag with
        | true =>
            simp only [collapseGo, hc, if_true] at hx
            rcases ih true x hx with h1 | h1
            · exact Or.inl h1
            · exact Or.inr (List.mem_cons_of_mem c h1)
        | false =>
            simp only [collapseGo, hc, if_true] at hx
            rcases List.mem_cons.mp hx with h1 | hx
            · exact Or.inl h1
            · rcases ih true x hx with h1 | h1
              · exact Or.inl h1
              · exact Or.inr (List.mem_cons_of_mem c h1)

theorem collapseGo_spacesOnly : ∀ (l : List Char) (flag : Bool),
    spacesOnly (collapseGo flag l) := by
  intro l
  induction l with
  | nil => intro flag x hx; simp [collapseGo] at hx
  | cons c rest ih =>
      intro flag x hx hxs
      cases hc : pySpace c
      · simp only [collapseGo, hc, Bool.false_eq_true, if_false] at hx
        rcases List.mem_cons.mp hx with h1 | hx
        · subst h1
          rw [hc] at hxs
          exact Bool.noConfusion hxs
        · exact ih false x hx hxs
      · cases flag with
        | true =>
            simp only [collapseGo, hc, if_true] at hx
            exact ih true x hx hxs
        | false =>
            simp only [collapseGo, hc, if_true] at hx
            rcases List.mem_cons.mp hx with h1 | hx
            · exact h1
            · exact ih true x hx hxs

theorem collapseGo_true_headNotSpace : ∀ l : List Char,
    headNotSpace (collapseGo true l) := by
  intro l
  induction l with
  | nil => trivial
  | cons c rest ih =>
      cases hc : pySpace c
      · simp only [collapseGo, hc, Bool.false_eq_true, if_false]
        exact hc
      · simp only [collapseGo, hc, if_true]
        exact ih

theorem collapseGo_noAdj : ∀ (l : List Char) (flag : Bool),
    noAdjSpace (collapseGo flag l) := by
  intro l
  induction l with
  | nil => intro flag; trivial
  | cons c rest ih =>
      intro flag
      cases hc : pySpace c
      · simp only [collapseGo, hc, Bool.false_eq_true, if_false]
        exact noAdjSpace_cons c _ (ih false) (Or.inl hc)
      · cases flag with
        | true =>
            simp only [collapseGo, hc, if_true]
            exact ih true
        | false =>
            simp only [collapseGo, hc, if_true]
            exact noAdjSpace_cons ' ' _ (ih true)
              (Or.inr (collapseGo_true_headNotSpace rest))

theorem collapseGo_id : ∀ l : List Char, spacesOnly l → noAdjSpace l →
    collapseGo false l = l ∧ (headNotSpace l → collapseGo true l = l) := by
  intro l
  induction l with
  | nil => intro _ _; exact ⟨rfl, fun _ => rfl⟩
  | cons c rest ih =>
      intro hso hna
      have hso' : spacesOnly rest := fun x hx => hso x (List.mem_cons_of_mem c hx)
      have hna' : noAdjSpace rest := noAdjSpace_tail c rest hna
      obtain ⟨ihf, iht⟩ := ih hso' hna'
      constructor
      · cases hc : pySpace c
        · simp only [collapseGo, hc, Bool.false_eq_true, if_false]
          rw [ihf]
        · have hceq : c = ' ' := hso c (List.mem_cons_self c rest) hc
          have hhead : headNotSpace rest := by
            cases rest with
            | nil => trivial
            | cons b r =>
                cases hb : pySpace b
                · exact hb
                · exact absurd ⟨hc, hb⟩ hna.1
          simp only [collapseGo, hc, if_true, Bool.false_eq_true, if_false]
          rw [iht hhead, hceq]
      · intro hhead
        have hc : pySpace c = false := hhead
        simp only [collapseGo, hc, Bool.false_eq_true, if_false]
        rw [ihf]

theorem collapseGo_upperSpaced : ∀ l : List Char,
    (∀ x, pySpace x = false → upperAfterWs (some x) l →
      upperSpaced (some x) (collapseGo false l)) ∧
    (∀ q, upperAfterWs q l → upperSpaced (some ' ') (collapseGo true l)) := by
  intro l
  induction l with
  | nil => exact ⟨fun x _ _ => trivial, fun q _ => trivial⟩
  | cons c rest ih =>
      constructor
      · intro x hx hu
        cases hc : pySpace c
        · simp only [collapseGo, hc, Bool.false_eq_true, if_false]
          refine ⟨fun hup => ?_, ih.1 c hc hu.2⟩
          exfalso
          obtain ⟨w, hw, hws⟩ := hu.1 hup
          have hxw : x = w := (Option.some.injEq _ _).mp hw
          rw [← hxw] at hws
          rw [hx] at hws
          exact Bool.noConfusion hws
        · simp only [collapseGo, hc, if_true]
          exact ⟨fun hup => absurd hup (by decide), ih.2 (some c) hu.2⟩
      · intro q hu
        cases hc : pySpace c
        · simp only [collapseGo, hc, Bool.false_eq_true, if_false]
          exact ⟨fun _ => Or.inr rfl, ih.1 c hc hu.2⟩
        · simp only [collapseGo, hc, if_true]
          exact ih.2 (some c) hu.2

theorem collapseWs_upperSpaced (l : List Char) (hu : upperAfterWs none l) :
    upperSpaced none (collapseWs l) := by
  cases l with
  | nil => trivial
  | cons c rest =>
      cases hc : pySpace c
      · simp only [collapseWs, collapseGo, hc, Bool.false_eq_true, if_false]
        exact ⟨fun _ => Or.inl rfl, (collapseGo_upperSpaced rest).1 c hc hu.2⟩
      · simp only [collapseWs, collapseGo, hc, if_true]
        exact ⟨fun hup => absurd hup (by decide), (collapseGo_upperSpaced rest).2 (some c) hu.2⟩

/-! ### `tidy_name` idempotence: stripping -/

theorem dropWhile_headNotSpace : ∀ l : List Char,
    headNotSpace (l.dropWhile pySpace) := by
  intro l
  induction l with
  | nil => trivial
  | cons c rest ih =>
      rw [List.dropWhile_cons]
      cases hc : pySpace c
      · simp only [Bool.false_eq_true, if_false]
        exact hc
      · simp only [if_true]
        exact ih

theorem dropWhile_mem (l : List Char) (x : Char) (hx : x ∈ l.dropWhile pySpace) :
    x ∈ l :=
  (List.dropWhile_sublist pySpace).subset hx

theorem noAdjSpace_dropWhile (l : List Char) (h : noAdjSpace l) :
    noAdjSpace (l.dropWhile pySpace) := by
  induction l with
  | nil => trivial
  | cons c rest ih =>
      rw [List.dropWhile_cons]
      cases hc : pySpace c
      · simp only [Bool.false_eq_true, if_false]
        exact h
      · simp only [if_true]
        exact ih (noAdjSpace_tail c rest h)

theorem upperSpaced_weaken (x : Char) (l : List Char)
    (h : upperSpaced (some x) l) : upperSpaced none l := by
  cases l with
  | nil => trivial
  | cons c rest => exact ⟨fun _ => Or.inl rfl, h.2⟩

theorem upperSpaced_dropWhile (l : List Char) (h : upperSpaced none l) :
    upperSpaced none (l.dropWhile pySpace) := by
  induction l with
  | nil => trivial
  | cons c rest ih =>
      rw [List.dropWhile_cons]
      cases hc : pySpace c
      · simp only [Bool.false_eq_true, if_false]
        exact h
      · simp only [if_true]
        exact ih (upperSpaced_weaken c rest h.2)

theorem noAdjSpace_append_left : ∀ l1 l2 : List Char,
    noAdjSpace (l1 ++ l2) → noAdjSpace l1 := by
  intro l1
  induction l1 with
  | nil => intro l2 _; trivial
  | cons c r ih =>
      intro l2 h
      cases r with
      | nil => trivial
      | cons b r2 =>
          exact ⟨h.1, ih l2 h.2⟩

theorem upperSpaced_append_left : ∀ (l1 l2 : List Char) (p : Option Char),
    upperSpaced p (l1 ++ l2) → upperSpaced p l1 := by
  intro l1
  induction l1 with
  | nil => intro l2 p _; trivial
  | cons c r ih =>
      intro l2 p h
      exact ⟨h.1, ih l2 (some c) h.2⟩

theorem rstrip_append (l : List Char) :
    l = rstrip l ++ (l.reverse.takeWhile pySpace).reverse := by
  unfold rstrip
  rw [← List.reverse_append, List.takeWhile_append_dropWhile, List.reverse_reverse]

theorem rstrip_mem (l : List Char) (x : Char) (hx : x ∈ rstrip l) : x ∈ l := by
  unfold rstrip at hx
  rw [List.mem_reverse] at hx
  have h2 := dropWhile_mem l.reverse x hx
  rwa [List.mem_reverse] at h2

theorem rstrip_lastNotSpace (l : List Char) : lastNotSpace (rstrip l) := by
  unfold lastNotSpace rstrip
  rw [List.reverse_reverse]
  exact dropWhile_headNotSpace l.reverse

theorem rstrip_headNotSpace (l : List Char) (h : headNotSpace l) :
    headNotSpace (rstrip l) := by
  cases hr : rstrip l with
  | nil => trivial
  | cons a r =>
      have hl : l = a :: (r ++ (l.reverse.takeWhile pySpace).reverse) := by
        conv_lhs => rw [rstrip_append l]
        rw [hr]
        rfl
      rw [hl] at h
      exact h

theorem noAdjSpace_rstrip (l : List Char) (h : noAdjSpace l) :
    noAdjSpace (rstrip l) := by
  have h2 := h
  rw [rstrip_append l] at h2
  exact noAdjSpace_append_left _ _ h2

theorem upperSpaced_rstrip (l : List Char) (h : upperSpaced none l) :
    upperSpaced none (rstrip l) := by
  have h2 := h
  rw [rstrip_append l] at h2
  exact upperSpaced_append_left _ _ none h2

theorem pyStrip_mem (l : List Char) (x : Char) (hx : x ∈ pyStrip l) : x ∈ l :=
  dropWhile_mem l x (rstrip_mem (lstrip l) x hx)

theorem pyStrip_headNotSpace (l : List Char) : headNotSpace (pyStrip l) :=
  rstrip_headNotSpace (lstrip l) (dropWhile_headNotSpace l)

theorem pyStrip_lastNotSpace (l : List Char) : lastNotSpace (pyStrip l) :=
  rstrip_lastNotSpace (lstrip l)

theorem pyStrip_noAdjSpace (l : List Char) (h : noAdjSpace l) :
    noAdjSpace (pyStrip l) :=
  noAdjSpace_rstrip _ (noAdjSpace_dropWhile l h)

theorem pyStrip_upperSpaced (l : List Char) (h : upperSpaced none l) :
    upperSpaced none (pyStrip l) :=
  upperSpaced_rstrip _ (upperSpaced_dropWhile l h)

theorem lstrip_id (l : List Char) (h : headNotSpace l) : lstrip l = l := by
  cases l with
  | nil => rfl
  | cons c rest =>
      have hc : pySpace c = false := h
      unfold lstrip
      rw [List.dropWhile_cons]
      simp only [hc, Bool.false_eq_true, if_false]

theorem rstrip_id (l : List Char) (h : lastNotSpace l) : rstrip l = l := by
  unfold rstrip
  have h2 : l.reverse.dropWhile pySpace = l.reverse := by
    have := lstrip_id l.reverse h
    simpa [lstrip] using this
  rw [h2, List.reverse_reverse]

theorem pyStrip_id (l : List Char) (h1 : headNotSpace l) (h2 : lastNotSpace l) :
    pyStrip l = l := by
  unfold pyStrip
  rw [lstrip_id l h1, rstrip_id l h2]

theorem lstrip_cons_space (l : List Char) : lstrip (' ' :: l) = lstrip l := by
  unfold lstrip
  rw [List.dropWhile_cons]
  simp [pySpace_space]


/-! ### `tidy_name` idempotence: assembling the invariants -/

theorem noSep_of_mem (l2 l1 : List Char) (h : ∀ x ∈ l2, x = ' ' ∨ x ∈ l1)
    (hn : noSep l1) : noSep l2 := by
  intro x hx
  rcases h x hx with h1 | h1
  · subst h1
    exact ⟨by decide, by decide⟩
  · exact hn x h1

theorem replaceSep_noSep (l : List Char) : noSep (replaceSep l) := by
  intro c hc
  obtain ⟨d, hd, hde⟩ := List.mem_map.mp hc
  by_cases hsepd : (d == '_' || d == '-') = true
  · rw [if_pos hsepd] at hde
    rw [← hde]
    exact ⟨by decide, by decide⟩
  · rw [if_neg hsepd] at hde
    subst hde
    simp only [Bool.or_eq_true, beq_iff_eq, not_or] at hsepd
    exact hsepd

theorem replaceSep_id (l : List Char) (h : noSep l) : replaceSep l = l := by
  have hcong : ∀ c ∈ l, (if c == '_' || c == '-' then ' ' else c) = c := by
    intro c hc
    have h1 := h c hc
    rw [if_neg]
    simp only [Bool.or_eq_true, beq_iff_eq, not_or]
    exact ⟨h1.1, h1.2⟩
  unfold replaceSep
  exact (List.map_congr_left hcong).trans (List.map_id l)

theorem tidyChars_invariants (l : List Char) :
    noSep (tidyChars l) ∧ spacesOnly (tidyChars l) ∧ noAdjSpace (tidyChars l) ∧
    headNotSpace (tidyChars l) ∧ lastNotSpace (tidyChars l) ∧
    upperSpaced none (tidyChars l) := by
  have hsep_u : noSep (replaceSep l) := replaceSep_noSep l
  have hsep_v : noSep (subAnd (replaceSep l)) :=
    noSep_of_mem _ _ (fun x hx => subAnd_mem (replaceSep l) x hx) hsep_u
  have hsep_w : noSep (spaceUpper (subAnd (replaceSep l))) :=
    noSep_of_mem _ _ (fun x hx => spaceUpperGo_mem _ none x hx) hsep_v
  have hsep_x : noSep (collapseWs (spaceUpper (subAnd (replaceSep l)))) :=
    noSep_of_mem _ _ (fun x hx => collapseGo_mem _ false x hx) hsep_w
  have hsep_t : noSep (tidyChars l) := fun x hx => hsep_x x (pyStrip_mem _ x hx)
  have hso_x : spacesOnly (collapseWs (spaceUpper (subAnd (replaceSep l)))) :=
    collapseGo_spacesOnly _ false
  have hso_t : spacesOnly (tidyChars l) := fun x hx => hso_x x (pyStrip_mem _ x hx)
  have hna_x : noAdjSpace (collapseWs (spaceUpper (subAnd (replaceSep l)))) :=
    collapseGo_noAdj _ false
  have hna_t : noAdjSpace (tidyChars l) := pyStrip_noAdjSpace _ hna_x
  have huaw_w : upperAfterWs none (spaceUpper (subAnd (replaceSep l))) :=
    uaw_spaceUpperGo _ none
  have hus_x : upperSpaced none (collapseWs (spaceUpper (subAnd (replaceSep l)))) :=
    collapseWs_upperSpaced _ huaw_w
  have hus_t : upperSpaced none (tidyChars l) := pyStrip_upperSpaced _ hus_x
  exact ⟨hsep_t, hso_t, hna_t, pyStrip_headNotSpace _, pyStrip_lastNotSpace _, hus_t⟩

theorem tidyChars_fixed (t : List Char) (hsep : noSep t) (hso : spacesOnly t)
    (hna : noAdjSpace t) (hhead : headNotSpace t) (hlast : lastNotSpace t)
    (hus : upperSpaced none t) : tidyChars t = t := by
  unfold tidyChars subAnd spaceUpper
  rw [replaceSep_id t hsep]
  rw [subAndGo_id t none hus]
  cases t with
  | nil => rfl
  | cons c rest =>
      have hrest : spaceUpperGo (some c) rest = rest := spaceUpperGo_id rest c hus.2
      cases hu : asciiUpper c
      · have h1 : spaceUpperGo none (c :: rest) = c :: rest := by
          simp only [spaceUpperGo, hu, Bool.false_and, Bool.false_eq_true, if_false]
          rw [hrest]
        rw [h1]
        have h2 : collapseWs (c :: rest) = c :: rest := (collapseGo_id (c :: rest) hso hna).1
        rw [h2]
        exact pyStrip_id _ hhead hlast
      · have hcns : pySpace c = false := upper_not_space c hu
        have h1 : spaceUpperGo none (c :: rest) = ' ' :: c :: rest := by
          simp only [spaceUpperGo, hu, prevNotSpace, Bool.and_self, if_true]
          rw [hrest]
        rw [h1]
        have hso' : spacesOnly rest := fun x hx => hso x (List.mem_cons_of_mem c hx)
        have hna' : noAdjSpace rest := noAdjSpace_tail c rest hna
        have h2 : collapseWs (' ' :: c :: rest) = ' ' :: c :: rest := by
          show collapseGo false (' ' :: c :: rest) = ' ' :: c :: rest
          simp only [collapseGo, pySpace_space, if_true, hcns, Bool.false_eq_true, if_false]
          rw [(collapseGo_id rest hso' hna').1]
        rw [h2]
        have h3 : pyStrip (' ' :: c :: rest) = pyStrip (c :: rest) := by
          unfold pyStrip
          rw [lstrip_cons_space]
        rw [h3]
        exact pyStrip_id _ hhead hlast

theorem tidyChars_idem (l : List Char) : tidyChars (tidyChars l) = tidyChars l := by
  obtain ⟨hsep, hso, hna, hhead, hlast, hus⟩ := tidyChars_invariants l
  exact tidyChars_fixed (tidyChars l) hsep hso hna hhead hlast hus

/-- C10: the offline rebuild's name-tidying function is idempotent: applying
`tidy_name` twice gives the same result as applying it once, for every
string, and every non-string value is returned unchanged. -/
theorem tidy_name_idempotent : ∀ v : PyVal,
    tidy_name (tidy_name v) = tidy_name v ∧
    (∀ n : Nat, tidy_name (.other n) = .other n) := by
  intro v
  refine ⟨?_, fun n => rfl⟩
  cases v with
  | other n => rfl
  | str s =>
      simp only [tidy_name]
      rw [tidyChars_idem s.data]

end GeoApp
